import Mathlib

/-!
Verification development for the Interlocking Brick scoring software.

This file gives a shallow embedding, in Lean 4, of the scoring-and-ranking
substrate of the repository: the in-memory `Team` objects (`Team.py`), the
ranking pass `MainWindow.rerank` (`Main.py`), the persistent store layer
(`Substrate.py`, modelled together with its per-statement SQLite commit
behaviour), the score-entry dialog logic (`Insert.py`), and the sync
dispatcher (`Sync.py`).  Theorems at the end of the file settle the frozen
specification claims against these definitions.
-/

/-! ## Team data model (Team.py)

A `Team` carries the fields assigned in `Team.__init__` / `Team.setScore`:
`name`, `number`, the three-element `scores` list, the derived
`highScore`, `highScoreIndex`, `secondHighest`, `thirdHighest`, and the
`rank` assigned by `MainWindow.rerank`.  Python stores `rank` as a float
(`1E10` sentinel); every value it ever takes is integral, so we model it
as `Int` with the sentinel `10^10`. -/

structure Team where
  name : String
  number : Int
  scores : List Int
  highScore : Int
  highScoreIndex : Int
  secondHighest : Int
  thirdHighest : Int
  rank : Int
deriving DecidableEq, Repr

/-- The "not placed" sentinel rank: `1E10` in `Main.py` 551. -/
def notPlacedRank : Int := 10000000000

/-- Python comparison of two 4-tuples, `a <= b` lexicographically: used by
`list.sort(key=...)` on the key tuples built in `MainWindow.rerank`. -/
def keyLe (a b : Int × Int × Int × Int) : Prop :=
  a.1 < b.1 ∨ (a.1 = b.1 ∧ (a.2.1 < b.2.1 ∨ (a.2.1 = b.2.1 ∧
    (a.2.2.1 < b.2.2.1 ∨ (a.2.2.1 = b.2.2.1 ∧ a.2.2.2 ≤ b.2.2.2)))))

instance : DecidableRel keyLe := fun a b => by
  unfold keyLe; infer_instance

/-- The sort key of `Main.py` 550:
`lambda x: (x.highScore, x.secondHighest, x.thirdHighest, -x.number)`. -/
def sortKey (t : Team) : Int × Int × Int × Int :=
  (t.highScore, t.secondHighest, t.thirdHighest, -t.number)

/-- The ordering used by `self.teams.sort(key=..., reverse=True)`:
`t` may come before `u` exactly when `t`'s key is `>=` `u`'s key
(descending).  Python's sort is stable; a stable sort under a total
preorder has a unique result, so modelling it with `List.insertionSort`
below is faithful. -/
def rerankRel (t u : Team) : Prop := keyLe (sortKey u) (sortKey t)

instance : DecidableRel rerankRel := fun t u => by
  unfold rerankRel; infer_instance

instance : IsTotal Team rerankRel := by
  constructor
  intro t u
  unfold rerankRel keyLe sortKey
  omega

instance : IsTrans Team rerankRel := by
  constructor
  intro t u v h₁ h₂
  unfold rerankRel keyLe sortKey at h₁ h₂ ⊢
  omega

/-- One step of the rank-assignment loop of `Main.py` 551-555:
`team.rank = 1E10 if sum(team.scores) == -3 else i + 1`. -/
def rankedAt (i : Nat) (t : Team) : Team :=
  if t.scores.sum = -3 then { t with rank := notPlacedRank }
  else { t with rank := (i : Int) + 1 }

/-- The `for i, team in enumerate(self.teams)` loop of `Main.py` 551-555,
carrying the running index. -/
def assignRanks : Nat → List Team → List Team
  | _, [] => []
  | i, t :: ts => rankedAt i t :: assignRanks (i + 1) ts

/-- Core of `MainWindow.rerank` (`Main.py` 547-556): sort the team list
descending by `(highScore, secondHighest, thirdHighest, -number)`, then
assign `rank = i + 1` by sorted position, with the `1E10` sentinel for
teams whose scores sum to `-3`. -/
def rerank (teams : List Team) : List Team :=
  assignRanks 0 (List.insertionSort rerankRel teams)

/-! ## The score invariant

Per the data model, each of the three scores is `-1` ("round not
played") or in `[0, 999]`, and the derived `highScore`, `secondHighest`,
`thirdHighest` are the scores sorted descending — exactly what
`Team.setScore` computes via `rankings = list(self.scores);
rankings.sort(reverse=True)` followed by the `remove` steps. -/

/-- Descending sort of an integer list: `rankings.sort(reverse=True)`. -/
def sortDesc (l : List Int) : List Int :=
  List.insertionSort (fun a b => b ≤ a) l

/-- A single score is `-1` or in `[0, 999]`. -/
def scoreOk (s : Int) : Prop := s = -1 ∨ (0 ≤ s ∧ s ≤ 999)

instance : DecidablePred scoreOk := fun s => by
  unfold scoreOk; infer_instance

/-- The score invariant of a team: exactly 3 scores, each in range, with
the derived triple equal to the scores sorted descending. -/
def scoreInv (t : Team) : Prop :=
  t.scores.length = 3 ∧ (∀ s ∈ t.scores, scoreOk s) ∧
    sortDesc t.scores = [t.highScore, t.secondHighest, t.thirdHighest]

instance : DecidablePred scoreInv := fun t => by
  unfold scoreInv; infer_instance

/-- "All three rounds unplayed": every score is `-1`. -/
def allUnplayed (t : Team) : Prop := ∀ s ∈ t.scores, s = -1

instance : DecidablePred allUnplayed := fun t => by
  unfold allUnplayed; infer_instance

/-! ### Facts about the score invariant and the derived high scores -/

instance : IsTotal Int (fun a b => b ≤ a) := ⟨fun a b => le_total b a⟩

instance : IsTrans Int (fun a b => b ≤ a) := ⟨fun _ _ _ h₁ h₂ => le_trans h₂ h₁⟩

/-- Under the score invariant's range and length conditions, the Python
test `sum(team.scores) == -3` holds exactly when all three scores are `-1`. -/
theorem sum_eq_neg3_iff (t : Team) (hlen : t.scores.length = 3)
    (hok : ∀ s ∈ t.scores, scoreOk s) :
    t.scores.sum = -3 ↔ allUnplayed t := by
  obtain ⟨a, b, c, h3⟩ := List.length_eq_three.mp hlen
  unfold allUnplayed
  rw [h3] at hok ⊢
  have ha := hok a (by simp)
  have hb := hok b (by simp)
  have hc := hok c (by simp)
  unfold scoreOk at ha hb hc
  simp only [List.sum_cons, List.sum_nil, List.forall_mem_cons, List.forall_mem_nil]
  constructor
  · intro h
    refine ⟨?_, ?_, ?_, by simp⟩ <;> omega
  · intro h
    obtain ⟨h1, h2, h3, -⟩ := h
    omega

/-- The derived `highScore` is a member of the scores and bounds them above. -/
theorem highScore_max (t : Team) (hinv : scoreInv t) :
    t.highScore ∈ t.scores ∧ ∀ s ∈ t.scores, s ≤ t.highScore := by
  obtain ⟨hlen, hok, hsort⟩ := hinv
  have hperm : (sortDesc t.scores).Perm t.scores := List.perm_insertionSort _ _
  have hsorted : List.Sorted (fun a b : Int => b ≤ a) (sortDesc t.scores) :=
    List.sorted_insertionSort _ _
  rw [hsort] at hperm hsorted
  rw [List.sorted_cons] at hsorted
  obtain ⟨hhead, _⟩ := hsorted
  constructor
  · exact hperm.mem_iff.mp (by simp)
  · intro s hs
    have hs' : s ∈ [t.highScore, t.secondHighest, t.thirdHighest] :=
      hperm.mem_iff.mpr hs
    simp only [List.mem_cons, List.not_mem_nil, or_false] at hs'
    rcases hs' with rfl | rfl | rfl
    · exact le_refl _
    · exact hhead _ (by simp)
    · exact hhead _ (by simp)

/-- An all-unplayed team (scores summing to `-3`) has `highScore = -1`. -/
theorem unplayed_highScore (t : Team) (hinv : scoreInv t)
    (hsum : t.scores.sum = -3) : t.highScore = -1 := by
  have hall : allUnplayed t := (sum_eq_neg3_iff t hinv.1 hinv.2.1).mp hsum
  exact hall _ (highScore_max t hinv).1

/-- A team with at least one played round has `highScore ≥ 0`. -/
theorem played_highScore (t : Team) (hinv : scoreInv t)
    (hsum : t.scores.sum ≠ -3) : 0 ≤ t.highScore := by
  have hnall : ¬ allUnplayed t := fun h =>
    hsum ((sum_eq_neg3_iff t hinv.1 hinv.2.1).mpr h)
  unfold allUnplayed at hnall
  push_neg at hnall
  obtain ⟨s, hs, hsne⟩ := hnall
  have hok := hinv.2.1 s hs
  have hle := (highScore_max t hinv).2 s hs
  unfold scoreOk at hok
  omega

/-! ### Structure of the sorted team list and of rank assignment -/

/-- In a list sorted by `rerankRel`, teams with a played round form a
prefix and all-unplayed teams form a suffix: an unplayed team (key head
`-1`) can never precede a played one (key head `≥ 0`). -/
theorem sorted_partition : ∀ l : List Team, (∀ t ∈ l, scoreInv t) →
    List.Pairwise rerankRel l →
    ∃ A B, l = A ++ B ∧ (∀ t ∈ A, t.scores.sum ≠ -3) ∧
      ∀ t ∈ B, t.scores.sum = -3 := by
  intro l
  induction l with
  | nil => exact fun _ _ => ⟨[], [], rfl, by simp, by simp⟩
  | cons t l ih =>
      intro hinv hpw
      rw [List.pairwise_cons] at hpw
      obtain ⟨hrel, hpw'⟩ := hpw
      by_cases h : t.scores.sum = -3
      · refine ⟨[], t :: l, rfl, by simp, ?_⟩
        intro u hu
        rcases List.mem_cons.mp hu with rfl | hu
        · exact h
        · by_contra hne
          have hut : rerankRel t u := hrel u hu
          have h1 : t.highScore = -1 :=
            unplayed_highScore t (hinv t (by simp)) h
          have h2 : 0 ≤ u.highScore :=
            played_highScore u (hinv u (by simp [hu])) hne
          unfold rerankRel keyLe sortKey at hut
          omega
      · obtain ⟨A, B, hAB, hA, hB⟩ :=
          ih (fun u hu => hinv u (by simp [hu])) hpw'
        refine ⟨t :: A, B, by rw [List.cons_append, hAB], ?_, hB⟩
        intro u hu
        rcases List.mem_cons.mp hu with rfl | hu
        · exact h
        · exact hA u hu

theorem rankedAt_scores (n : Nat) (t : Team) : (rankedAt n t).scores = t.scores := by
  unfold rankedAt; split <;> rfl

theorem rankedAt_number (n : Nat) (t : Team) : (rankedAt n t).number = t.number := by
  unfold rankedAt; split <;> rfl

theorem assignRanks_length (l : List Team) : ∀ i, (assignRanks i l).length = l.length := by
  induction l with
  | nil => intro i; rfl
  | cons a l ih => intro i; simp [assignRanks, ih (i + 1)]

theorem assignRanks_append (A B : List Team) : ∀ i,
    assignRanks i (A ++ B) = assignRanks i A ++ assignRanks (i + A.length) B := by
  induction A with
  | nil => intro i; simp [assignRanks]
  | cons a A ih =>
      intro i
      simp only [List.cons_append, assignRanks, List.append_eq, List.length_cons]
      rw [ih (i + 1)]
      have harith : i + 1 + A.length = i + (A.length + 1) := by omega
      rw [harith]

theorem mem_assignRanks : ∀ (i : Nat) (l : List Team) (t : Team),
    t ∈ assignRanks i l → ∃ u ∈ l, ∃ n, t = rankedAt n u := by
  intro i l
  induction l generalizing i with
  | nil => simp [assignRanks]
  | cons a l ih =>
      intro t ht
      rcases List.mem_cons.mp ht with rfl | ht
      · exact ⟨a, by simp, i, rfl⟩
      · obtain ⟨u, hu, n, rfl⟩ := ih (i + 1) t ht
        exact ⟨u, by simp [hu], n, rfl⟩

/-- Over a block of played teams, the assigned ranks are consecutive
integers starting one above the running index. -/
theorem assignRanks_ranks_of_played (A : List Team) : ∀ i,
    (∀ t ∈ A, t.scores.sum ≠ -3) →
    (assignRanks i A).map Team.rank =
      (List.range' (i + 1) A.length).map (fun n : Nat => (n : Int)) := by
  induction A with
  | nil => intro i _; simp [assignRanks]
  | cons a A ih =>
      intro i hA
      have ha : a.scores.sum ≠ -3 := hA a (by simp)
      rw [List.length_cons, List.range'_succ]
      simp only [assignRanks, rankedAt, if_neg ha, List.map_cons]
      rw [ih (i + 1) (fun t ht => hA t (by simp [ht]))]
      congr 1

/-- Over a block of all-unplayed teams, every assigned rank is the sentinel. -/
theorem assignRanks_rank_of_unplayed (B : List Team) : ∀ i,
    (∀ t ∈ B, t.scores.sum = -3) →
    ∀ t ∈ assignRanks i B, t.rank = notPlacedRank := by
  induction B with
  | nil => intro i _ t ht; simp [assignRanks] at ht
  | cons b B ih =>
      intro i hB t ht
      rcases List.mem_cons.mp ht with rfl | ht
      · simp [rankedAt, hB b (by simp)]
      · exact ih (i + 1) (fun u hu => hB u (by simp [hu])) t ht

/-- C1: on any team list satisfying the score invariant, `rerank` splits
the result into a block of teams with at least one played round, whose
ranks are exactly `1, 2, ..., k` in order, followed by a block of
all-unplayed teams, each ranked with the `notPlacedRank` sentinel; no
all-unplayed team is interleaved among the ranked block. -/
theorem rerank_rank_partition (ts : List Team) (hinv : ∀ t ∈ ts, scoreInv t) :
    ∃ A B, rerank ts = A ++ B
      ∧ (∀ t ∈ A, ¬ allUnplayed t)
      ∧ (∀ t ∈ B, allUnplayed t ∧ t.rank = notPlacedRank)
      ∧ A.map Team.rank = (List.range' 1 A.length).map (fun n : Nat => (n : Int)) := by
  have hinvs : ∀ t ∈ List.insertionSort rerankRel ts, scoreInv t := fun t ht =>
    hinv t ((List.mem_insertionSort _).mp ht)
  have hsorted : List.Pairwise rerankRel (List.insertionSort rerankRel ts) :=
    List.sorted_insertionSort _ _
  obtain ⟨A₀, B₀, hAB, hA₀, hB₀⟩ := sorted_partition _ hinvs hsorted
  have hmemA : ∀ u ∈ A₀, scoreInv u := fun u hu =>
    hinvs u (by rw [hAB]; exact List.mem_append_left _ hu)
  have hmemB : ∀ u ∈ B₀, scoreInv u := fun u hu =>
    hinvs u (by rw [hAB]; exact List.mem_append_right _ hu)
  refine ⟨assignRanks 0 A₀, assignRanks A₀.length B₀, ?_, ?_, ?_, ?_⟩
  · unfold rerank
    rw [hAB, assignRanks_append]
    simp
  · intro t ht
    obtain ⟨u, hu, n, rfl⟩ := mem_assignRanks _ _ _ ht
    intro hall
    have hall' : allUnplayed u := by
      intro s hs
      exact hall s (by rw [rankedAt_scores]; exact hs)
    have hsum : u.scores.sum = -3 :=
      (sum_eq_neg3_iff u (hmemA u hu).1 (hmemA u hu).2.1).mpr hall'
    exact hA₀ u hu hsum
  · intro t ht
    obtain ⟨u, hu, n, hrfl⟩ := mem_assignRanks _ _ _ ht
    have hsum := hB₀ u hu
    have hall : allUnplayed u :=
      (sum_eq_neg3_iff u (hmemB u hu).1 (hmemB u hu).2.1).mp hsum
    constructor
    · intro s hs
      exact hall s (by rw [hrfl, rankedAt_scores] at hs; exact hs)
    · exact assignRanks_rank_of_unplayed B₀ A₀.length hB₀ t ht
  · rw [assignRanks_length, assignRanks_ranks_of_played A₀ 0 hA₀]

/-- A concrete played team used in witnesses. -/
def falconsTeam : Team :=
  { name := "Falcons", number := 101, scores := [45, -1, -1],
    highScore := 45, highScoreIndex := 0, secondHighest := -1,
    thirdHighest := -1, rank := 0 }

/-- A concrete all-unplayed team used in witnesses. -/
def idleTeam : Team :=
  { name := "Idle", number := 7, scores := [-1, -1, -1],
    highScore := -1, highScoreIndex := -1, secondHighest := -1,
    thirdHighest := -1, rank := 0 }

/-- Witness for C1 at a concrete input: a played team and an all-unplayed
team, both satisfying the score invariant. -/
theorem rerank_rank_partition_witness :
    (∀ t ∈ [falconsTeam, idleTeam], scoreInv t) ∧
    (∃ A B, rerank [falconsTeam, idleTeam] = A ++ B
      ∧ (∀ t ∈ A, ¬ allUnplayed t)
      ∧ (∀ t ∈ B, allUnplayed t ∧ t.rank = notPlacedRank)
      ∧ A.map Team.rank = (List.range' 1 A.length).map (fun n : Nat => (n : Int))) :=
  ⟨by decide, rerank_rank_partition _ (by decide)⟩

/-! ### Frame lemmas: rank assignment touches only the `rank` field -/

/-- All fields of a team except `rank`. -/
def stripRank (t : Team) : String × Int × List Int × Int × Int × Int × Int :=
  (t.name, t.number, t.scores, t.highScore, t.highScoreIndex,
    t.secondHighest, t.thirdHighest)

theorem stripRank_rankedAt (n : Nat) (t : Team) :
    stripRank (rankedAt n t) = stripRank t := by
  unfold rankedAt stripRank; split <;> rfl

theorem sortKey_rankedAt (n : Nat) (t : Team) :
    sortKey (rankedAt n t) = sortKey t := by
  unfold rankedAt sortKey; split <;> rfl

theorem map_stripRank_assignRanks : ∀ (i : Nat) (l : List Team),
    (assignRanks i l).map stripRank = l.map stripRank := by
  intro i l
  induction l generalizing i with
  | nil => rfl
  | cons a l ih => simp [assignRanks, stripRank_rankedAt, ih (i + 1)]

theorem map_number_assignRanks : ∀ (i : Nat) (l : List Team),
    (assignRanks i l).map Team.number = l.map Team.number := by
  intro i l
  induction l generalizing i with
  | nil => rfl
  | cons a l ih => simp [assignRanks, rankedAt_number, ih (i + 1)]

/-- C10: the core sort-and-assign step of `rerank` permutes the input
list and writes only the `rank` field: stripped of `rank`, the output is
a permutation of the stripped input, so no team is added or removed and
`name`, `number`, `scores`, `highScore`, `highScoreIndex`,
`secondHighest`, `thirdHighest` of every team are unchanged. -/
theorem rerank_frame (ts : List Team) :
    ((rerank ts).map stripRank).Perm (ts.map stripRank) := by
  unfold rerank
  rw [map_stripRank_assignRanks]
  exact (List.perm_insertionSort rerankRel ts).map stripRank

/-! ### Position and idempotence lemmas for `rerank` -/

theorem getElem?_assignRanks : ∀ (i j : Nat) (l : List Team),
    (assignRanks i l)[j]? = (l[j]?).map (fun t => rankedAt (i + j) t) := by
  intro i j l
  induction l generalizing i j with
  | nil => simp [assignRanks]
  | cons a l ih =>
      cases j with
      | zero => simp [assignRanks]
      | succ j =>
          simp only [assignRanks, List.getElem?_cons_succ, ih (i + 1) j]
          have harith : i + 1 + j = i + (j + 1) := by omega
          rw [harith]

theorem rerankRel_rankedAt (n m : Nat) (t u : Team) :
    rerankRel (rankedAt n t) (rankedAt m u) ↔ rerankRel t u := by
  unfold rerankRel
  rw [sortKey_rankedAt, sortKey_rankedAt]

theorem pairwise_assignRanks : ∀ (i : Nat) (l : List Team),
    List.Pairwise rerankRel l → List.Pairwise rerankRel (assignRanks i l) := by
  intro i l
  induction l generalizing i with
  | nil => intro _; simp [assignRanks]
  | cons a l ih =>
      intro h
      rw [List.pairwise_cons] at h
      obtain ⟨ha, hl⟩ := h
      simp only [assignRanks, List.pairwise_cons]
      constructor
      · intro b hb
        obtain ⟨u, hu, m, rfl⟩ := mem_assignRanks _ _ _ hb
        exact (rerankRel_rankedAt _ _ _ _).mpr (ha u hu)
      · exact ih (i + 1) hl

theorem rankedAt_rankedAt (n : Nat) (t : Team) :
    rankedAt n (rankedAt n t) = rankedAt n t := by
  unfold rankedAt
  by_cases h : t.scores.sum = -3 <;> simp [h]

theorem assignRanks_idem : ∀ (i : Nat) (l : List Team),
    assignRanks i (assignRanks i l) = assignRanks i l := by
  intro i l
  induction l generalizing i with
  | nil => rfl
  | cons a l ih => simp [assignRanks, rankedAt_rankedAt, ih (i + 1)]

/-- C2: the ranking order is a total order.  With the score invariant and
unique team numbers, any two teams with identical
`(highScore, secondHighest, thirdHighest)` are separated by team number:
the smaller-numbered team's entry appears strictly earlier in the
`rerank` output, and — whenever the pair has a played round — receives a
strictly smaller rank number.  Moreover reranking an already-reranked
list reproduces it exactly (idempotence). -/
theorem rerank_tiebreak_idempotent (ts : List Team)
    (hinv : ∀ t ∈ ts, scoreInv t)
    (hnodup : (ts.map Team.number).Nodup) :
    (∀ t ∈ ts, ∀ u ∈ ts,
      t.highScore = u.highScore → t.secondHighest = u.secondHighest →
      t.thirdHighest = u.thirdHighest → t.number < u.number →
      ∃ i j : Nat, ∃ rt ru : Team,
        i < j ∧ (rerank ts)[i]? = some rt ∧ (rerank ts)[j]? = some ru ∧
        rt.number = t.number ∧ ru.number = u.number ∧
        (¬ allUnplayed t → rt.rank < ru.rank)) ∧
    rerank (rerank ts) = rerank ts := by
  constructor
  · intro t ht u hu h1 h2 h3 hnum
    have hperm : (List.insertionSort rerankRel ts).Perm ts :=
      List.perm_insertionSort _ _
    have hpw : List.Pairwise rerankRel (List.insertionSort rerankRel ts) :=
      List.sorted_insertionSort _ _
    have htl : t ∈ List.insertionSort rerankRel ts := hperm.mem_iff.mpr ht
    have hul : u ∈ List.insertionSort rerankRel ts := hperm.mem_iff.mpr hu
    obtain ⟨i, hi, hti⟩ := List.mem_iff_getElem.mp htl
    obtain ⟨j, hj, huj⟩ := List.mem_iff_getElem.mp hul
    have hij : i < j := by
      rcases lt_trichotomy i j with h | h | h
      · exact h
      · exfalso
        subst h
        have htu : t = u := by rw [← hti, huj]
        rw [htu] at hnum
        exact lt_irrefl _ hnum
      · exfalso
        have hrel := List.pairwise_iff_get.mp hpw ⟨j, hj⟩ ⟨i, hi⟩ h
        simp only [List.get_eq_getElem, hti, huj] at hrel
        unfold rerankRel keyLe sortKey at hrel
        dsimp only at hrel
        omega
    refine ⟨i, j, rankedAt i t, rankedAt j u, hij, ?_, ?_, ?_, ?_, ?_⟩
    · unfold rerank
      rw [getElem?_assignRanks, List.getElem?_eq_getElem hi, hti]
      simp
    · unfold rerank
      rw [getElem?_assignRanks, List.getElem?_eq_getElem hj, huj]
      simp
    · exact rankedAt_number i t
    · exact rankedAt_number j u
    · intro hall
      have hsumt : t.scores.sum ≠ -3 := fun h =>
        hall ((sum_eq_neg3_iff t (hinv t ht).1 (hinv t ht).2.1).mp h)
      have hsumu : u.scores.sum ≠ -3 := by
        intro h
        have hu1 : u.highScore = -1 := unplayed_highScore u (hinv u hu) h
        have ht0 : 0 ≤ t.highScore := played_highScore t (hinv t ht) hsumt
        rw [h1, hu1] at ht0
        omega
      unfold rankedAt
      rw [if_neg hsumt, if_neg hsumu]
      dsimp only
      omega
  · unfold rerank
    have hpw2 : List.Pairwise rerankRel
        (assignRanks 0 (List.insertionSort rerankRel ts)) :=
      pairwise_assignRanks 0 _ (List.sorted_insertionSort _ _)
    rw [List.Sorted.insertionSort_eq hpw2, assignRanks_idem]

/-- Tie-break witness team number 10, scores `[50, 40, 30]`. -/
def team10 : Team :=
  { name := "Alpha", number := 10, scores := [50, 40, 30],
    highScore := 50, highScoreIndex := 0, secondHighest := 40,
    thirdHighest := 30, rank := 0 }

/-- Tie-break witness team number 20, scores `[50, 40, 30]`. -/
def team20 : Team :=
  { name := "Beta", number := 20, scores := [50, 40, 30],
    highScore := 50, highScoreIndex := 0, secondHighest := 40,
    thirdHighest := 30, rank := 0 }

/-- Witness for C2 at the spec's own example: teams 10 and 20 with the
identical score triple `[50, 40, 30]`. -/
theorem rerank_tiebreak_idempotent_witness :
    ((∀ t ∈ [team20, team10], scoreInv t) ∧
      ([team20, team10].map Team.number).Nodup) ∧
    ((∀ t ∈ [team20, team10], ∀ u ∈ [team20, team10],
      t.highScore = u.highScore → t.secondHighest = u.secondHighest →
      t.thirdHighest = u.thirdHighest → t.number < u.number →
      ∃ i j : Nat, ∃ rt ru : Team,
        i < j ∧ (rerank [team20, team10])[i]? = some rt ∧
        (rerank [team20, team10])[j]? = some ru ∧
        rt.number = t.number ∧ ru.number = u.number ∧
        (¬ allUnplayed t → rt.rank < ru.rank)) ∧
    rerank (rerank [team20, team10]) = rerank [team20, team10]) :=
  ⟨⟨by decide, by decide⟩,
    rerank_tiebreak_idempotent _ (by decide) (by decide)⟩

/-! ## The persistent store (Substrate.py)

The SQLite tables `teams`, `scores`, `scoresheets`, `audit` are modelled
as row lists.  The module-level connection is modelled by `Conn`, which
tracks the uncommitted `pending` state plus the list of committed
snapshots (`commits`): `cur.execute(...)` edits `pending`, `db.commit()`
appends the current `pending` to `commits`.  This makes the per-statement
commit discipline of `Substrate.py` (one commit inside every
`writeAuditEntry`, plus the trailing commit of `deleteTeam`) visible. -/

structure TeamRow where
  teamnumber : Int
  name : String
  pit : Int
deriving DecidableEq, Repr

structure ScoreRow where
  slug : String
  teamnumber : Int
  round : Int
  score : Int
  comments : String
deriving DecidableEq, Repr

structure ScoresheetRow where
  slug : String
  teamnumber : Int
  round : Int
  scoresheet : String
deriving DecidableEq, Repr

/-- The audit `data` dictionaries built by `Substrate.py`, one constructor
per shape (note `deleteTeam` writes its scoresheet entries with keys
`old_scoresheet`/`new_scoresheet` but the same tag `score_delete`). -/
inductive AuditRecord where
  | teamAdd (teamnumber : Int) (name : String)
  | teamUpdate (teamnumber : Int) (old_name new_name : String) (old_pit new_pit : Int)
  | scoreUpdate (teamnumber round : Int) (old_score : Option Int) (new_score : Int)
  | teamDelete (teamnumber : Int)
  | scoreDelete (teamnumber round : Int) (old_score new_score : Option Int)
  | scoresheetDelete (teamnumber round : Int) (old_scoresheet new_scoresheet : Option String)
deriving DecidableEq, Repr

structure AuditEntry where
  tag : String
  data : AuditRecord
deriving DecidableEq, Repr

structure Store where
  teams : List TeamRow
  scores : List ScoreRow
  scoresheets : List ScoresheetRow
  audit : List AuditEntry
deriving DecidableEq, Repr

/-- The module-level `_db`/`_cur` pair: `pending` is the uncommitted
state seen by the cursor, `commits` the sequence of committed snapshots. -/
structure Conn where
  pending : Store
  commits : List Store
deriving DecidableEq, Repr

/-- A `_cur.execute` of a data-modifying statement. -/
def execOn (f : Store → Store) (c : Conn) : Conn := { c with pending := f c.pending }

/-- A `_db.commit()`: everything pending becomes durable. -/
def commitDb (c : Conn) : Conn := { c with commits := c.commits ++ [c.pending] }

/-- The `slug` column value `f"{teamnumber}-{round}"`. -/
def mkSlug (teamnumber round : Int) : String :=
  toString teamnumber ++ "-" ++ toString round

/-- `Substrate.writeAuditEntry` (197-207): INSERT the entry into `audit`,
then `_db.commit()` — so each audit write commits everything pending. -/
def writeAuditEntry (tag : String) (data : AuditRecord) (c : Conn) : Conn :=
  commitDb (execOn (fun st => { st with audit := st.audit ++ [⟨tag, data⟩] }) c)

/-- The SELECT in `saveScore` (126-128): the existing score for
`(teamnumber, round)`, `none` when no row matches. -/
def storedScore (st : Store) (teamnumber round : Int) : Option Int :=
  ((st.scores.filter
    (fun row => row.teamnumber == teamnumber && row.round == round)).head?).map
      (fun row => row.score)

/-- `Substrate.saveTeam` (95-119): SELECT any existing row for the team
number, INSERT OR REPLACE the row (the `teamnumber UNIQUE` constraint
drops any conflicting row), then write `team_add` or `team_update`. -/
def saveTeam (c : Conn) (teamnumber : Int) (name : String) (pit : Int) : Conn :=
  let old_team := (c.pending.teams.filter
    (fun tr => tr.teamnumber == teamnumber)).head?
  let c1 := execOn (fun st =>
    { st with teams := st.teams.filter (fun tr => !(tr.teamnumber == teamnumber)) ++
        [⟨teamnumber, name, pit⟩] }) c
  match old_team with
  | none => writeAuditEntry "team_add" (AuditRecord.teamAdd teamnumber name) c1
  | some old =>
      writeAuditEntry "team_update"
        (AuditRecord.teamUpdate teamnumber old.name name old.pit pit) c1

/-- `Substrate.saveScore` (122-140): SELECT the previous score for
`(teamnumber, round)`, INSERT OR REPLACE the row keyed by `slug UNIQUE`,
then write one `score_update` audit entry with `old_score`/`new_score`. -/
def saveScore (c : Conn) (teamnumber round score : Int) (comments : String) : Conn :=
  let slug := mkSlug teamnumber round
  let old_score := storedScore c.pending teamnumber round
  let c1 := execOn (fun st =>
    { st with scores := st.scores.filter (fun row => !(row.slug == slug)) ++
        [⟨slug, teamnumber, round, score, comments⟩] }) c
  writeAuditEntry "score_update"
    (AuditRecord.scoreUpdate teamnumber round old_score score) c1

/-- The `for score_entry in maybe_delete_scores` loop of `deleteTeam`
(172-180): per row, write a `score_delete` audit entry, then DELETE the
row by slug. -/
def deleteScoreRows (teamnumber : Int) : List ScoreRow → Conn → Conn
  | [], c => c
  | row :: rest, c =>
      let c1 := writeAuditEntry "score_delete"
        (AuditRecord.scoreDelete teamnumber row.round (some row.score) none) c
      let c2 := execOn (fun st =>
        { st with scores := st.scores.filter (fun r => !(r.slug == row.slug)) }) c1
      deleteScoreRows teamnumber rest c2

/-- The scoresheet loop of `deleteTeam` (182-192): same shape, tag again
`score_delete`, keys `old_scoresheet`/`new_scoresheet`. -/
def deleteScoresheetRows (teamnumber : Int) : List ScoresheetRow → Conn → Conn
  | [], c => c
  | row :: rest, c =>
      let c1 := writeAuditEntry "score_delete"
        (AuditRecord.scoresheetDelete teamnumber row.round (some row.scoresheet) none) c
      let c2 := execOn (fun st =>
        { st with scoresheets := st.scoresheets.filter (fun r => !(r.slug == row.slug)) }) c1
      deleteScoresheetRows teamnumber rest c2

/-- `Substrate.deleteTeam` (163-194): write the `team_delete` audit entry
FIRST, DELETE the team row, then fetch and delete the associated score
rows (auditing each), then the scoresheet rows, then a final commit. -/
def deleteTeam (c : Conn) (teamnumber : Int) : Conn :=
  let c1 := writeAuditEntry "team_delete" (AuditRecord.teamDelete teamnumber) c
  let c2 := execOn (fun st =>
    { st with teams := st.teams.filter (fun tr => !(tr.teamnumber == teamnumber)) }) c1
  let maybe_delete_scores := c2.pending.scores.filter
    (fun row => row.teamnumber == teamnumber)
  let c3 := deleteScoreRows teamnumber maybe_delete_scores c2
  let maybe_delete_scoresheets := c3.pending.scoresheets.filter
    (fun row => row.teamnumber == teamnumber)
  let c4 := deleteScoresheetRows teamnumber maybe_delete_scoresheets c3
  commitDb c4

/-! ### Store well-formedness and the saveScore/deleteTeam lemmas -/

/-- Well-formedness of the `scores` table, enforced by SQLite in the
source: every row's `slug` column is derived from its key, and `slug` is
UNIQUE. -/
def WFScores (st : Store) : Prop :=
  (∀ row ∈ st.scores, row.slug = mkSlug row.teamnumber row.round) ∧
    (st.scores.map (fun row => row.slug)).Nodup

instance : DecidablePred WFScores := fun st => by
  unfold WFScores; infer_instance

theorem length_le_one_of_const_slug (l : List ScoreRow) (v : String)
    (hnodup : (l.map (fun row => row.slug)).Nodup)
    (hconst : ∀ row ∈ l, row.slug = v) : l.length ≤ 1 := by
  match l with
  | [] => simp
  | [a] => simp
  | a :: b :: rest =>
      exfalso
      simp only [List.map_cons, List.nodup_cons, List.mem_cons, List.mem_map] at hnodup
      exact hnodup.1 (Or.inl (by
        rw [hconst a (by simp), hconst b (by simp)]))

/-- Under well-formedness, a row matching `(teamnumber, round)` is the
unique result of the key SELECT. -/
theorem filter_key_eq_singleton (st : Store) (t r : Int) (hwf : WFScores st)
    (row : ScoreRow) (hrow : row ∈ st.scores)
    (ht : row.teamnumber = t) (hr : row.round = r) :
    st.scores.filter (fun q => q.teamnumber == t && q.round == r) = [row] := by
  have hmemF : row ∈ st.scores.filter (fun q => q.teamnumber == t && q.round == r) := by
    rw [List.mem_filter]
    exact ⟨hrow, by simp [ht, hr]⟩
  have hsub : (st.scores.filter (fun q => q.teamnumber == t && q.round == r)).Sublist
      st.scores := List.filter_sublist _
  have hnodupF : ((st.scores.filter
      (fun q => q.teamnumber == t && q.round == r)).map (fun q => q.slug)).Nodup :=
    List.Nodup.sublist (hsub.map (fun q => q.slug)) hwf.2
  have hconst : ∀ q ∈ st.scores.filter (fun q => q.teamnumber == t && q.round == r),
      q.slug = mkSlug t r := by
    intro q hq
    rw [List.mem_filter] at hq
    have hkey := hq.2
    simp only [Bool.and_eq_true, beq_iff_eq] at hkey
    rw [hwf.1 q hq.1, hkey.1, hkey.2]
  have hlen := length_le_one_of_const_slug _ _ hnodupF hconst
  rcases hcase : st.scores.filter (fun q => q.teamnumber == t && q.round == r) with
    _ | ⟨x, l2⟩
  · rw [hcase] at hmemF
    simp at hmemF
  · rcases l2 with _ | ⟨y, rest⟩
    · rw [hcase] at hmemF
      simp only [List.mem_singleton] at hmemF
      rw [hmemF]
      exact hcase
    · rw [hcase] at hlen
      simp at hlen

theorem storedScore_eq_none_iff (st : Store) (t r : Int) :
    storedScore st t r = none ↔
      ∀ row ∈ st.scores, ¬(row.teamnumber = t ∧ row.round = r) := by
  unfold storedScore
  rw [Option.map_eq_none']
  rw [List.head?_eq_none_iff]
  rw [List.filter_eq_nil_iff]
  constructor
  · intro h row hrow hand
    exact h row hrow (by simp [hand.1, hand.2])
  · intro h row hrow hkey
    simp only [Bool.and_eq_true, beq_iff_eq] at hkey
    exact h row hrow ⟨hkey.1, hkey.2⟩

theorem storedScore_eq_of_mem (st : Store) (t r : Int) (hwf : WFScores st)
    (row : ScoreRow) (hrow : row ∈ st.scores)
    (ht : row.teamnumber = t) (hr : row.round = r) :
    storedScore st t r = some row.score := by
  unfold storedScore
  rw [filter_key_eq_singleton st t r hwf row hrow ht hr]
  rfl

theorem saveScore_audit (c : Conn) (t r s : Int) (cm : String) :
    (saveScore c t r s cm).pending.audit =
      c.pending.audit ++
        [⟨"score_update", AuditRecord.scoreUpdate t r (storedScore c.pending t r) s⟩] := rfl

theorem saveScore_scores (c : Conn) (t r s : Int) (cm : String) :
    (saveScore c t r s cm).pending.scores =
      c.pending.scores.filter (fun row => !(row.slug == mkSlug t r)) ++
        [⟨mkSlug t r, t, r, s, cm⟩] := rfl

/-- After the upsert, the key SELECT returns exactly the new row. -/
theorem saveScore_filter_key (c : Conn) (t r s : Int) (cm : String)
    (hwf : WFScores c.pending) :
    (saveScore c t r s cm).pending.scores.filter
        (fun q => q.teamnumber == t && q.round == r) =
      [⟨mkSlug t r, t, r, s, cm⟩] := by
  rw [saveScore_scores, List.filter_append]
  have h1 : (c.pending.scores.filter (fun row => !(row.slug == mkSlug t r))).filter
      (fun q => q.teamnumber == t && q.round == r) = [] := by
    rw [List.filter_eq_nil_iff]
    intro q hq
    rw [List.mem_filter] at hq
    intro hkey
    simp only [Bool.and_eq_true, beq_iff_eq] at hkey
    have hslug : q.slug = mkSlug t r := by
      rw [hwf.1 q hq.1, hkey.1, hkey.2]
    simp [hslug] at hq
  rw [h1]
  simp

theorem storedScore_saveScore (c : Conn) (t r s : Int) (cm : String)
    (hwf : WFScores c.pending) :
    storedScore (saveScore c t r s cm).pending t r = some s := by
  unfold storedScore
  rw [saveScore_filter_key c t r s cm hwf]
  rfl

theorem WFScores_saveScore (c : Conn) (t r s : Int) (cm : String)
    (hwf : WFScores c.pending) :
    WFScores (saveScore c t r s cm).pending := by
  constructor
  · intro row hrow
    rw [saveScore_scores] at hrow
    rcases List.mem_append.mp hrow with h | h
    · exact hwf.1 row (List.mem_of_mem_filter h)
    · simp only [List.mem_singleton] at h
      rw [h]
  · rw [saveScore_scores, List.map_append, List.nodup_append]
    refine ⟨?_, by simp, ?_⟩
    · exact List.Nodup.sublist ((List.filter_sublist _).map _) hwf.2
    · intro v hv
      simp only [List.mem_map] at hv
      obtain ⟨q, hq, hqv⟩ := hv
      rw [List.mem_filter] at hq
      simp only [List.map_cons, List.map_nil, List.mem_singleton]
      intro hvs
      rw [hvs] at hqv
      simp [hqv] at hq

/-- C3: on a well-formed store, every `saveScore(teamnumber, round,
score, comments)` call appends exactly one audit entry, tagged
`score_update`, whose `old_score` is the previously stored score for the
key (`none` when no row existed) and whose `new_score` is the `score`
argument; afterwards the scores table holds exactly one row for
`(teamnumber, round)` and it carries the new score. -/
theorem saveScore_upsert_audit (c : Conn) (t r s : Int) (cm : String)
    (hwf : WFScores c.pending) :
    ((saveScore c t r s cm).pending.audit =
      c.pending.audit ++
        [⟨"score_update", AuditRecord.scoreUpdate t r (storedScore c.pending t r) s⟩]) ∧
    (storedScore c.pending t r = none ↔
      ∀ row ∈ c.pending.scores, ¬(row.teamnumber = t ∧ row.round = r)) ∧
    (∀ row ∈ c.pending.scores, row.teamnumber = t → row.round = r →
      storedScore c.pending t r = some row.score) ∧
    ((saveScore c t r s cm).pending.scores.filter
        (fun q => q.teamnumber == t && q.round == r) =
      [⟨mkSlug t r, t, r, s, cm⟩]) ∧
    storedScore (saveScore c t r s cm).pending t r = some s ∧
    WFScores (saveScore c t r s cm).pending :=
  ⟨saveScore_audit c t r s cm,
   storedScore_eq_none_iff c.pending t r,
   fun row hrow ht hr => storedScore_eq_of_mem c.pending t r hwf row hrow ht hr,
   saveScore_filter_key c t r s cm hwf,
   storedScore_saveScore c t r s cm hwf,
   WFScores_saveScore c t r s cm hwf⟩

/-- A concrete well-formed connection holding team 7 with one score row,
used in witnesses and counterexamples. -/
def connTeam7 : Conn :=
  { pending :=
      { teams := [⟨7, "Rockets", 0⟩],
        scores := [⟨"7-1", 7, 1, 42, ""⟩],
        scoresheets := [],
        audit := [] },
    commits := [] }

/-- Witness for C3: overwriting the stored score 42 for `(7, 1)` with 77
on the concrete well-formed store. -/
theorem saveScore_upsert_audit_witness :
    WFScores connTeam7.pending ∧
    (((saveScore connTeam7 7 1 77 "").pending.audit =
      connTeam7.pending.audit ++
        [⟨"score_update",
          AuditRecord.scoreUpdate 7 1 (storedScore connTeam7.pending 7 1) 77⟩]) ∧
    (storedScore connTeam7.pending 7 1 = none ↔
      ∀ row ∈ connTeam7.pending.scores, ¬(row.teamnumber = 7 ∧ row.round = 1)) ∧
    (∀ row ∈ connTeam7.pending.scores, row.teamnumber = 7 → row.round = 1 →
      storedScore connTeam7.pending 7 1 = some row.score) ∧
    ((saveScore connTeam7 7 1 77 "").pending.scores.filter
        (fun q => q.teamnumber == 7 && q.round == 1) =
      [⟨mkSlug 7 1, 7, 1, 77, ""⟩]) ∧
    storedScore (saveScore connTeam7 7 1 77 "").pending 7 1 = some 77 ∧
    WFScores (saveScore connTeam7 7 1 77 "").pending) :=
  ⟨by decide, saveScore_upsert_audit connTeam7 7 1 77 "" (by decide)⟩

/-! ### deleteTeam: audit order and commit boundaries -/

theorem pending_commitDb (c : Conn) : (commitDb c).pending = c.pending := rfl

theorem deleteScoreRows_audit (tn : Int) : ∀ (rows : List ScoreRow) (c : Conn),
    (deleteScoreRows tn rows c).pending.audit =
      c.pending.audit ++ rows.map (fun row =>
        ⟨"score_delete", AuditRecord.scoreDelete tn row.round (some row.score) none⟩) := by
  intro rows
  induction rows with
  | nil => intro c; simp [deleteScoreRows]
  | cons row rest ih =>
      intro c
      simp only [deleteScoreRows, List.map_cons]
      rw [ih]
      simp [writeAuditEntry, execOn, commitDb]

theorem deleteScoreRows_scoresheets (tn : Int) : ∀ (rows : List ScoreRow) (c : Conn),
    (deleteScoreRows tn rows c).pending.scoresheets = c.pending.scoresheets := by
  intro rows
  induction rows with
  | nil => intro c; simp [deleteScoreRows]
  | cons row rest ih =>
      intro c
      simp only [deleteScoreRows]
      rw [ih]
      simp [writeAuditEntry, execOn, commitDb]

theorem deleteScoresheetRows_audit (tn : Int) : ∀ (rows : List ScoresheetRow) (c : Conn),
    (deleteScoresheetRows tn rows c).pending.audit =
      c.pending.audit ++ rows.map (fun row =>
        ⟨"score_delete",
          AuditRecord.scoresheetDelete tn row.round (some row.scoresheet) none⟩) := by
  intro rows
  induction rows with
  | nil => intro c; simp [deleteScoresheetRows]
  | cons row rest ih =>
      intro c
      simp only [deleteScoresheetRows, List.map_cons]
      rw [ih]
      simp [writeAuditEntry, execOn, commitDb]

/-- C4 (amended): `deleteTeam` writes the single `team_delete` audit
entry FIRST, and THEN one `score_delete` entry per associated score row
(capturing the removed value, in table order), followed by one
`score_delete`-tagged entry per associated scoresheet row. -/
theorem deleteTeam_audit_order (c : Conn) (tn : Int) :
    (deleteTeam c tn).pending.audit =
      c.pending.audit ++ [⟨"team_delete", AuditRecord.teamDelete tn⟩]
        ++ ((c.pending.scores.filter (fun row => row.teamnumber == tn)).map
             (fun row => ⟨"score_delete",
               AuditRecord.scoreDelete tn row.round (some row.score) none⟩))
        ++ ((c.pending.scoresheets.filter (fun row => row.teamnumber == tn)).map
             (fun row => ⟨"score_delete",
               AuditRecord.scoresheetDelete tn row.round (some row.scoresheet) none⟩)) := by
  unfold deleteTeam
  rw [pending_commitDb, deleteScoresheetRows_audit, deleteScoreRows_scoresheets,
    deleteScoreRows_audit]
  simp [writeAuditEntry, execOn, commitDb]

/-- Counterexample to C4 as frozen: deleting team 7 (one score row, 42 in
round 1) appends `team_delete` BEFORE the `score_delete` entry, not
after. -/
theorem deleteTeam_audit_order_counterexample :
    ((deleteTeam connTeam7 7).pending.audit =
      [⟨"team_delete", AuditRecord.teamDelete 7⟩,
       ⟨"score_delete", AuditRecord.scoreDelete 7 1 (some 42) none⟩]) ∧
    ¬((deleteTeam connTeam7 7).pending.audit =
      [⟨"score_delete", AuditRecord.scoreDelete 7 1 (some 42) none⟩,
       ⟨"team_delete", AuditRecord.teamDelete 7⟩]) := by decide

/-- C5 is false of the code: the `deleteTeam` cascade for team 7 with one
score row issues three separate commits; the first commits the
`team_delete` audit entry while the team row is still present (audit and
data write are in different units of work), and the second commits the
team-row removal while the score row is still present — a partial
removal visible at a commit boundary. -/
theorem deleteTeam_commits_not_atomic :
    ((deleteTeam connTeam7 7).commits.length = 3) ∧
    (((deleteTeam connTeam7 7).commits[0]?).map Store.teams =
      some [⟨7, "Rockets", 0⟩]) ∧
    (((deleteTeam connTeam7 7).commits[0]?).map
        (fun st => st.audit.map AuditEntry.tag) = some ["team_delete"]) ∧
    (((deleteTeam connTeam7 7).commits[1]?).map Store.teams = some []) ∧
    (((deleteTeam connTeam7 7).commits[1]?).map Store.scores =
      some [⟨"7-1", 7, 1, 42, ""⟩]) := by decide

/-! ## Team creation and score entry (Team.py, Insert.py) -/

/-- A Python value passed as a positional argument. -/
inductive PyVal where
  | int (i : Int)
  | str (s : String)
deriving DecidableEq, Repr

/-- Python call semantics for `Substrate.saveTeam(teamnumber, name, pit)`:
three required positional parameters, no defaults; any other argument
shape raises `TypeError` before the body runs. -/
def saveTeamPyCall (c : Conn) (args : List PyVal) : Except String Conn :=
  match args with
  | [PyVal.int teamnumber, PyVal.str name, PyVal.int pit] =>
      Except.ok (saveTeam c teamnumber name pit)
  | _ => Except.error "TypeError"

/-- `Team.__init__` (`Team.py` 21-33): set the fields, then call
`Substrate.saveTeam(number, name)` — only two of the three required
arguments — inside `try/except Exception as err: print(err)`.  The
`TypeError` raised by the two-argument call is swallowed, leaving the
store untouched. -/
def teamInit (c : Conn) (name : String) (number : Int) : Team × Conn :=
  let t : Team :=
    { name := name, number := number, scores := [-1, -1, -1],
      highScore := -1, highScoreIndex := -1, secondHighest := -1,
      thirdHighest := -1, rank := notPlacedRank }
  match saveTeamPyCall c [PyVal.int number, PyVal.str name] with
  | Except.ok c1 => (t, c1)
  | Except.error _ => (t, c)

/-- The empty freshly-initialized store. -/
def emptyConn : Conn :=
  { pending := { teams := [], scores := [], scoresheets := [], audit := [] },
    commits := [] }

/-- C8 is false of the code: constructing `Team("Falcons", 101)` on an
empty store persists nothing — the two-argument `saveTeam` call raises
`TypeError` (missing `pit`), the `except` swallows it, and the teams
table and audit log remain empty.  In general the constructor returns
the store unchanged. -/
theorem teamInit_does_not_persist :
    ((teamInit emptyConn "Falcons" 101).2.pending.teams = [] ∧
     (teamInit emptyConn "Falcons" 101).2.pending.audit = []) ∧
    ∀ (c : Conn) (name : String) (number : Int), (teamInit c name number).2 = c :=
  ⟨by decide, fun _ _ _ => rfl⟩

/-- `Team.setScore` (`Team.py` 38-54): write the round slot, persist via
`Substrate.saveScore(self.number, roundNum, score)` (the `comments`
parameter defaults to `""`), then recompute `highScore`,
`highScoreIndex` (`scores.index`, first occurrence), `secondHighest`,
`thirdHighest` from the scores sorted descending.  The fallback arm is
unreachable for the 3-element score lists the program maintains; the
dialog only ever passes `roundNum` in `{1, 2, 3}`. -/
def setScoreTeam (t : Team) (roundNum score : Int) : Team :=
  match sortDesc (t.scores.set (roundNum - 1).toNat score) with
  | [a, b, c3] =>
      { t with
          scores := t.scores.set (roundNum - 1).toNat score, highScore := a,
          highScoreIndex :=
            (List.indexOf a (t.scores.set (roundNum - 1).toNat score) : Int),
          secondHighest := b, thirdHighest := c3 }
  | _ => { t with scores := t.scores.set (roundNum - 1).toNat score }

def setScore (t : Team) (c : Conn) (roundNum score : Int) : Team × Conn :=
  (setScoreTeam t roundNum score, saveScore c t.number roundNum score "")

/-- `Insert.insertScore` (`Insert.py` 131-144), score handling for a
numeric entry: `score = max(-1, min(999, int(self.score.text())))`, then
`team.setScore(round, score)`. -/
def insertScore (t : Team) (c : Conn) (roundNum rawScore : Int) : Team × Conn :=
  let score := max (-1) (min 999 rawScore)
  setScore t c roundNum score

/-- A fresh team numbered 101 with no scores, as built by the add-team
workflow. -/
def team101Fresh : Team :=
  { name := "Falcons", number := 101, scores := [-1, -1, -1],
    highScore := -1, highScoreIndex := -1, secondHighest := -1,
    thirdHighest := -1, rank := 0 }

/-- Counterexample to C9 as frozen: entering the out-of-range score 1500
for round 1 of team 101 is NOT rejected — it reaches the store as the
clamped value 999, changing both the persisted scores table (and audit
log) and the in-memory team. -/
theorem insertScore_out_of_range_reaches_store :
    ((insertScore team101Fresh emptyConn 1 1500).2.pending.scores =
      [⟨"101-1", 101, 1, 999, ""⟩]) ∧
    ((insertScore team101Fresh emptyConn 1 1500).2.pending.audit =
      [⟨"score_update", AuditRecord.scoreUpdate 101 1 none 999⟩]) ∧
    ((insertScore team101Fresh emptyConn 1 1500).1.scores = [999, -1, -1]) := by
  decide

theorem setScore_conn (t : Team) (c : Conn) (rn s : Int) :
    (setScore t c rn s).2 = saveScore c t.number rn s "" := rfl

theorem setScore_team_scores (t : Team) (c : Conn) (rn s : Int) :
    (setScore t c rn s).1.scores = t.scores.set (rn - 1).toNat s := by
  show (setScoreTeam t rn s).scores = _
  unfold setScoreTeam
  split <;> rfl

/-- C9 (amended): an out-of-range numeric score is NOT rejected by
`Insert.insertScore`; it is clamped into `[-1, 999]` and the clamped
value — which always satisfies the score invariant — is what reaches
`setScore` and the `saveScore` upsert: the team's round slot and the
persisted row end up holding the clamped value. -/
theorem insertScore_clamps (t : Team) (c : Conn) (rn v : Int)
    (hwf : WFScores c.pending) :
    insertScore t c rn v = setScore t c rn (max (-1) (min 999 v)) ∧
    scoreOk (max (-1) (min 999 v)) ∧
    (insertScore t c rn v).1.scores =
      t.scores.set (rn - 1).toNat (max (-1) (min 999 v)) ∧
    storedScore (insertScore t c rn v).2.pending t.number rn =
      some (max (-1) (min 999 v)) := by
  refine ⟨rfl, ?_, ?_, ?_⟩
  · unfold scoreOk
    omega
  · exact setScore_team_scores t c rn _
  · show storedScore (setScore t c rn _).2.pending t.number rn = _
    rw [setScore_conn]
    exact storedScore_saveScore c t.number rn _ "" hwf

/-- Witness for C9 (amended) at the concrete out-of-range entry 1500. -/
theorem insertScore_clamps_witness :
    WFScores emptyConn.pending ∧
    (insertScore team101Fresh emptyConn 1 1500 =
      setScore team101Fresh emptyConn 1 (max (-1) (min 999 1500)) ∧
    scoreOk (max (-1) (min 999 1500)) ∧
    (insertScore team101Fresh emptyConn 1 1500).1.scores =
      team101Fresh.scores.set ((1 : Int) - 1).toNat (max (-1) (min 999 1500)) ∧
    storedScore (insertScore team101Fresh emptyConn 1 1500).2.pending
      team101Fresh.number 1 = some (max (-1) (min 999 1500))) :=
  ⟨by decide, insertScore_clamps team101Fresh emptyConn 1 1500 (by decide)⟩

/-! ## The sync dispatcher (Sync.py)

The queue (`request_queue`), the one-shot credentials event
(`setup_event`), and the worker (`request_thread`) are modelled as a
small state machine: producers enqueue (`post_teams`,
`post_match_status`, `post_score` all just `request_queue.put(...)`),
`setup_sync` sets the event, and one worker step dequeues and processes
a single item exactly as the loop body of `request_thread` does — it
runs only when the event is set, breaks on the `None` sentinel, POSTs to
the endpoint matching the message class, and on a raised HTTP error the
bare `except: return` kills the worker for good (`dead`).  A non-2xx
response is only printed and does not stop the worker. -/

structure TeamSyncObject where
  name : String
  teamnumber : Int
  pit : Int
deriving DecidableEq, Repr

structure TeamStateSync where
  name : String
  teamnumber : Int
  pit : Int
  round1 : Int
  round2 : Int
  round3 : Int
deriving DecidableEq, Repr

/-- The four message classes of `Sync.py`. -/
inductive SyncMsg where
  | teamSync (teams : List TeamSyncObject)
  | matchSync (match_num : Int) (status : String)
  | scoreSync (teamnumber match_num score : Int)
  | eventSync (match_num : Int) (status : String) (teams : List TeamStateSync)
deriving DecidableEq, Repr

/-- Endpoint selection in the `isinstance` chain of `request_thread`. -/
def endpointOf : SyncMsg → String
  | SyncMsg.teamSync _ => "/teams"
  | SyncMsg.matchSync _ _ => "/match"
  | SyncMsg.scoreSync _ _ _ => "/scores"
  | SyncMsg.eventSync _ _ _ => "/sync"

/-- Outcome of one `requests.post`: either an HTTP response with some
status code (any code — the worker only prints it), or a raised
exception (timeout, connection error, ...). -/
inductive HttpOutcome where
  | response (status : Nat)
  | raised
deriving DecidableEq, Repr

/-- One POST actually issued by the worker. -/
structure Delivery where
  endpoint : String
  msg : SyncMsg
deriving DecidableEq, Repr

def deliver (m : SyncMsg) : Delivery := ⟨endpointOf m, m⟩

/-- Events of the two-context system: producer enqueue (`None` is the
stop sentinel), `setup_sync`, and one worker loop iteration. -/
inductive SyncEvent where
  | enqueue (item : Option SyncMsg)
  | setupSync
  | workerStep
deriving DecidableEq, Repr

structure SyncState where
  credsReady : Bool
  queue : List (Option SyncMsg)
  sent : List Delivery
  stopped : Bool
  dead : Bool
deriving DecidableEq, Repr

def initialSyncState : SyncState :=
  { credsReady := false, queue := [], sent := [], stopped := false, dead := false }

/-- One event.  A worker step runs only past `setup_event.wait()`
(`credsReady`), only while the loop is alive (`¬stopped`, `¬dead`), and
blocks (no-op here) on an empty queue. -/
def syncStep (env : SyncMsg → HttpOutcome) (s : SyncState) : SyncEvent → SyncState
  | SyncEvent.enqueue item => { s with queue := s.queue ++ [item] }
  | SyncEvent.setupSync => { s with credsReady := true }
  | SyncEvent.workerStep =>
      if s.credsReady && !s.stopped && !s.dead then
        match s.queue with
        | [] => s
        | none :: rest => { s with queue := rest, stopped := true }
        | some m :: rest =>
            match env m with
            | HttpOutcome.raised => { s with queue := rest, dead := true }
            | HttpOutcome.response _ =>
                { s with queue := rest, sent := s.sent ++ [deliver m] }
      else s

def syncRun (env : SyncMsg → HttpOutcome) (evs : List SyncEvent) : SyncState :=
  evs.foldl (syncStep env) initialSyncState

/-- Producer enqueues for a list of messages, in order. -/
def enqueueEvents (ms : List SyncMsg) : List SyncEvent :=
  ms.map (fun m => SyncEvent.enqueue (some m))

/-! ### Sync worker lemmas -/

theorem syncRun_no_setup (env : SyncMsg → HttpOutcome) :
    ∀ (evs : List SyncEvent) (s : SyncState),
      s.credsReady = false → SyncEvent.setupSync ∉ evs →
      (evs.foldl (syncStep env) s).credsReady = false ∧
        (evs.foldl (syncStep env) s).sent = s.sent := by
  intro evs
  induction evs with
  | nil => intro s h _; exact ⟨h, rfl⟩
  | cons e evs ih =>
      intro s hcreds hmem
      have hne : e ≠ SyncEvent.setupSync := fun h => hmem (by simp [h])
      have hmem' : SyncEvent.setupSync ∉ evs := fun h => hmem (by simp [h])
      cases e with
      | enqueue item =>
          simpa using ih { s with queue := s.queue ++ [item] } hcreds hmem'
      | setupSync => exact absurd rfl hne
      | workerStep =>
          have hstep : syncStep env s SyncEvent.workerStep = s := by
            unfold syncStep
            rw [hcreds]
            simp
          simpa [hstep] using ih s hcreds hmem'

theorem foldl_enqueueEvents (env : SyncMsg → HttpOutcome) :
    ∀ (ms : List SyncMsg) (s : SyncState),
      (enqueueEvents ms).foldl (syncStep env) s =
        { s with queue := s.queue ++ ms.map some } := by
  intro ms
  induction ms with
  | nil => intro s; simp [enqueueEvents]
  | cons m ms ih =>
      intro s
      simp only [enqueueEvents, List.map_cons, List.foldl_cons]
      show (enqueueEvents ms).foldl (syncStep env)
        { s with queue := s.queue ++ [some m] } = _
      rw [ih]
      simp

/-- Draining lemma: with credentials ready and a live worker, as many
worker steps as there are leading (non-raising) messages deliver exactly
those messages, in order, to their endpoints. -/
theorem foldl_worker_drain (env : SyncMsg → HttpOutcome) :
    ∀ (ms : List SyncMsg) (rest : List (Option SyncMsg)) (s : SyncState),
      s.credsReady = true → s.stopped = false → s.dead = false →
      s.queue = ms.map some ++ rest →
      (∀ m ∈ ms, env m ≠ HttpOutcome.raised) →
      (List.replicate ms.length SyncEvent.workerStep).foldl (syncStep env) s =
        { s with queue := rest, sent := s.sent ++ ms.map deliver } := by
  intro ms
  induction ms with
  | nil =>
      intro rest s hcr hst hdd hq _
      simp only [List.length_nil, List.replicate_zero, List.foldl_nil]
      cases s
      simp_all
  | cons m ms ih =>
      intro rest s hcr hst hdd hq henv
      simp only [List.length_cons, List.replicate_succ, List.foldl_cons]
      have hstep : syncStep env s SyncEvent.workerStep =
          { credsReady := true, queue := ms.map some ++ rest,
            sent := s.sent ++ [deliver m], stopped := false, dead := false } := by
        unfold syncStep
        rw [hcr, hst, hdd, hq]
        simp only [List.map_cons, List.cons_append, Bool.not_false, Bool.and_self,
          if_true]
        cases hout : env m with
        | response k => rfl
        | raised => exact absurd hout (henv m (by simp))
      rw [hstep]
      rw [ih rest
        { credsReady := true, queue := ms.map some ++ rest,
          sent := s.sent ++ [deliver m], stopped := false, dead := false }
        rfl rfl rfl rfl (fun x hx => henv x (by simp [hx]))]
      simp [hcr, hst, hdd]

theorem foldl_worker_stopped (env : SyncMsg → HttpOutcome) :
    ∀ (k : Nat) (s : SyncState), s.stopped = true →
      (List.replicate k SyncEvent.workerStep).foldl (syncStep env) s = s := by
  intro k
  induction k with
  | zero => intro s _; rfl
  | succ k ih =>
      intro s hst
      simp only [List.replicate_succ, List.foldl_cons]
      have hstep : syncStep env s SyncEvent.workerStep = s := by
        unfold syncStep
        rw [hst]
        simp
      rw [hstep]
      exact ih s hst

/-- C7: (a) while the one-shot credentials signal is unset nothing is
ever sent, however much producers enqueue; (b) once `setup_sync` fires,
the worker delivers every message enqueued before and after the signal,
in exact FIFO order, each to the endpoint matching its kind (as recorded
by `deliver`), provided no POST raises; (c) a dequeued `None` sentinel
stops the worker cleanly: it delivers everything enqueued before the
sentinel and ignores any further worker steps. -/
theorem sync_worker_gating_fifo_stop (env : SyncMsg → HttpOutcome)
    (ms₁ ms₂ : List SyncMsg) (k : Nat)
    (henv₁ : ∀ m ∈ ms₁, env m ≠ HttpOutcome.raised)
    (henv₂ : ∀ m ∈ ms₂, env m ≠ HttpOutcome.raised) :
    (∀ evs : List SyncEvent, SyncEvent.setupSync ∉ evs →
      (syncRun env evs).sent = []) ∧
    (syncRun env (enqueueEvents ms₁ ++ [SyncEvent.setupSync] ++ enqueueEvents ms₂ ++
        List.replicate (ms₁.length + ms₂.length) SyncEvent.workerStep) =
      { credsReady := true, queue := [], sent := (ms₁ ++ ms₂).map deliver,
        stopped := false, dead := false }) ∧
    (syncRun env (enqueueEvents ms₁ ++ [SyncEvent.enqueue none] ++ [SyncEvent.setupSync] ++
        List.replicate (ms₁.length + 1 + k) SyncEvent.workerStep) =
      { credsReady := true, queue := [], sent := ms₁.map deliver,
        stopped := true, dead := false }) := by
  have hA : (enqueueEvents ms₁).foldl (syncStep env) initialSyncState =
      { credsReady := false, queue := ms₁.map some, sent := [],
        stopped := false, dead := false } := by
    rw [foldl_enqueueEvents]
    simp [initialSyncState]
  refine ⟨?_, ?_, ?_⟩
  · intro evs hmem
    exact (syncRun_no_setup env evs initialSyncState rfl hmem).2
  · have henv : ∀ m ∈ ms₁ ++ ms₂, env m ≠ HttpOutcome.raised := by
      intro m hm
      rcases List.mem_append.mp hm with h | h
      · exact henv₁ m h
      · exact henv₂ m h
    have hC : (enqueueEvents ms₂).foldl (syncStep env)
        { credsReady := true, queue := ms₁.map some, sent := [],
          stopped := false, dead := false } =
        { credsReady := true, queue := ms₁.map some ++ ms₂.map some, sent := [],
          stopped := false, dead := false } := by
      rw [foldl_enqueueEvents]
    have hD := foldl_worker_drain env (ms₁ ++ ms₂) []
      { credsReady := true, queue := ms₁.map some ++ ms₂.map some, sent := [],
        stopped := false, dead := false } rfl rfl rfl (by simp) henv
    unfold syncRun
    rw [List.foldl_append, List.foldl_append, List.foldl_append, hA]
    simp only [List.foldl_cons, List.foldl_nil]
    have hB : syncStep env
        { credsReady := false, queue := ms₁.map some, sent := [],
          stopped := false, dead := false } SyncEvent.setupSync =
        { credsReady := true, queue := ms₁.map some, sent := [],
          stopped := false, dead := false } := rfl
    rw [hB, hC]
    have hlen : ms₁.length + ms₂.length = (ms₁ ++ ms₂).length := by simp
    rw [hlen, hD]
    simp
  · have hD := foldl_worker_drain env ms₁ [none]
      { credsReady := true, queue := ms₁.map some ++ [none], sent := [],
        stopped := false, dead := false } rfl rfl rfl rfl henv₁
    unfold syncRun
    rw [List.foldl_append, List.foldl_append, List.foldl_append, hA]
    simp only [List.foldl_cons, List.foldl_nil]
    have hB1 : syncStep env
        { credsReady := false, queue := ms₁.map some, sent := [],
          stopped := false, dead := false } (SyncEvent.enqueue none) =
        { credsReady := false, queue := ms₁.map some ++ [none], sent := [],
          stopped := false, dead := false } := rfl
    rw [hB1]
    have hB2 : syncStep env
        { credsReady := false, queue := ms₁.map some ++ [none], sent := [],
          stopped := false, dead := false } SyncEvent.setupSync =
        { credsReady := true, queue := ms₁.map some ++ [none], sent := [],
          stopped := false, dead := false } := rfl
    rw [hB2]
    rw [List.replicate_add, List.replicate_add, List.foldl_append, List.foldl_append,
      hD]
    simp only [List.replicate_one, List.foldl_cons, List.foldl_nil]
    have hB3 : syncStep env
        { credsReady := true, queue := [none], sent := [] ++ ms₁.map deliver,
          stopped := false, dead := false } SyncEvent.workerStep =
        { credsReady := true, queue := [], sent := [] ++ ms₁.map deliver,
          stopped := true, dead := false } := rfl
    rw [hB3, foldl_worker_stopped env k _ rfl]
    simp

/-- Reflector that answers every POST with HTTP 200. -/
def env200 : SyncMsg → HttpOutcome := fun _ => HttpOutcome.response 200

/-- The spec's sync-queue scenario messages: a `TeamsSnapshot`, a
`MatchStatus("running")`, and a `ScoreUpdate`, enqueued in that order. -/
def scenarioMsgs : List SyncMsg :=
  [SyncMsg.teamSync [⟨"Falcons", 101, 1⟩],
   SyncMsg.matchSync 1 "running",
   SyncMsg.scoreSync 101 1 45]

/-- Witness for C7 at the spec's scenario: all three messages are
enqueued before credentials arrive, then delivered in order. -/
theorem sync_worker_gating_fifo_stop_witness :
    ((∀ m ∈ scenarioMsgs, env200 m ≠ HttpOutcome.raised) ∧
     (∀ m ∈ ([] : List SyncMsg), env200 m ≠ HttpOutcome.raised)) ∧
    ((∀ evs : List SyncEvent, SyncEvent.setupSync ∉ evs →
       (syncRun env200 evs).sent = []) ∧
     (syncRun env200 (enqueueEvents scenarioMsgs ++ [SyncEvent.setupSync] ++
         enqueueEvents [] ++
         List.replicate (scenarioMsgs.length + ([] : List SyncMsg).length)
           SyncEvent.workerStep) =
       { credsReady := true, queue := [], sent := (scenarioMsgs ++ []).map deliver,
         stopped := false, dead := false }) ∧
     (syncRun env200 (enqueueEvents scenarioMsgs ++ [SyncEvent.enqueue none] ++
         [SyncEvent.setupSync] ++
         List.replicate (scenarioMsgs.length + 1 + 0) SyncEvent.workerStep) =
       { credsReady := true, queue := [], sent := scenarioMsgs.map deliver,
         stopped := true, dead := false })) :=
  ⟨⟨by decide, by decide⟩,
    sync_worker_gating_fifo_stop env200 scenarioMsgs [] 0 (by decide) (by decide)⟩

/-- Reflector whose `/scores` POST raises (timeout / network error) while
every other endpoint answers 200. -/
def envScoreRaises : SyncMsg → HttpOutcome := fun m =>
  match m with
  | SyncMsg.scoreSync _ _ _ => HttpOutcome.raised
  | _ => HttpOutcome.response 200

/-- Reflector that answers every POST with HTTP 500. -/
def env500 : SyncMsg → HttpOutcome := fun _ => HttpOutcome.response 500

/-- C6 is false of the code for raised errors: when the POST for the
queued `ScoreUpdate` raises, the bare `except: return` of
`request_thread` kills the worker (`dead`), so the already-queued
`MatchStatus` is never delivered — the worker does NOT proceed to the
next message.  (A non-2xx response, by contrast, really is swallowed:
with every POST answering 500 the worker delivers both messages and
still honours the stop sentinel.  And enqueuing never observes the
failure: a producer enqueue appends to the queue whatever the worker's
state.) -/
theorem sync_worker_dies_on_raised_post :
    (syncRun envScoreRaises
        [SyncEvent.enqueue (some (SyncMsg.scoreSync 5 1 42)),
         SyncEvent.enqueue (some (SyncMsg.matchSync 3 "running")),
         SyncEvent.setupSync, SyncEvent.workerStep, SyncEvent.workerStep,
         SyncEvent.workerStep] =
      { credsReady := true, queue := [some (SyncMsg.matchSync 3 "running")],
        sent := [], stopped := false, dead := true }) ∧
    (syncRun env500
        [SyncEvent.enqueue (some (SyncMsg.matchSync 3 "running")),
         SyncEvent.enqueue (some (SyncMsg.scoreSync 5 1 42)),
         SyncEvent.enqueue none, SyncEvent.setupSync, SyncEvent.workerStep,
         SyncEvent.workerStep, SyncEvent.workerStep] =
      { credsReady := true, queue := [],
        sent := [deliver (SyncMsg.matchSync 3 "running"),
                 deliver (SyncMsg.scoreSync 5 1 42)],
        stopped := true, dead := false }) ∧
    (∀ (s : SyncState) (item : Option SyncMsg),
      (syncStep envScoreRaises s (SyncEvent.enqueue item)).queue = s.queue ++ [item]) :=
  ⟨by decide, by decide, fun _ _ => rfl⟩
